import Mathlib

/-!
Shallow embedding of the AutoCompress plugin's native core:

* `src/autoCompress/resolve.ts` — binary resolution with a process-wide
  cache (`resolveBinary`, `pullBinary`, `candidatePaths`, `validateBinary`);
* `src/autoCompress/native.ts` — compression orchestration (`handleFile`,
  `getVideoDuration`, `compressVideo`, `cleanup`).

Pure computations are translated to Lean functions; event-driven
child-process code is translated to explicit state machines over lists of
delivered events, with the enclosing JS `Promise` modelled by a
first-settle-wins outcome slot.  Filesystem and subprocess effects are
supplied by explicit environments, and each operation additionally
returns the trace of observable actions it performed.
-/

/-- The two external tools the plugin drives; `resolve.ts` uses the
literal union type `"ffmpeg" | "ffprobe"`. -/
inductive Bin
| ffmpeg
| ffprobe
deriving DecidableEq, Repr

/-- The tool's name string, used in candidate paths, validation output
matching and error messages. -/
def Bin.name : Bin → String
| .ffmpeg => "ffmpeg"
| .ffprobe => "ffprobe"

/-- The host platforms `candidatePaths` distinguishes via
`process.platform` (`win32`, `darwin`, and the default branch). -/
inductive Platform
| win32
| darwin
| otherUnix
deriving DecidableEq, Repr

/-- `candidatePaths` from `resolve.ts`: the fixed, ordered, per-platform
candidate path lists. -/
def candidatePaths (pf : Platform) (bin : Bin) : List String :=
  match pf with
  | .win32 =>
      ["C:\\ffmpeg\\bin\\" ++ bin.name ++ ".exe",
       "C:\\Program Files\\ffmpeg\\bin\\" ++ bin.name ++ ".exe",
       "C:\\Program Files (x86)\\ffmpeg\\bin\\" ++ bin.name ++ ".exe"]
  | .darwin =>
      ["/opt/homebrew/bin/" ++ bin.name,
       "/usr/local/bin/" ++ bin.name,
       "/usr/bin/" ++ bin.name]
  | .otherUnix =>
      ["/usr/bin/" ++ bin.name,
       "/usr/local/bin/" ++ bin.name,
       "/bin/" ++ bin.name,
       "/snap/bin/" ++ bin.name,
       "/app/bin/" ++ bin.name]

/-- JS truthiness of an optional string value: `undefined` and the empty
string are falsy, every other string is truthy.  This is the test
performed by `if (cache[bin])`, `if (userPath)` and `if (!binPath)` in
`resolve.ts`. -/
def strTruthy : Option String → Option String
| some s => if s = "" then none else some s
| none => none

/-- The module-level resolution cache of `resolve.ts`
(`const cache: Partial<Record<"ffmpeg" | "ffprobe", string>>`). -/
structure Cache where
  ffmpeg : Option String
  ffprobe : Option String
deriving DecidableEq, Repr

/-- The cache with neither tool resolved (module initial state). -/
def Cache.empty : Cache := ⟨none, none⟩

/-- Read `cache[bin]`. -/
def Cache.get : Cache → Bin → Option String
| c, .ffmpeg => c.ffmpeg
| c, .ffprobe => c.ffprobe

/-- Write `cache[bin] = p`. -/
def Cache.set : Cache → Bin → String → Cache
| c, .ffmpeg, p => { c with ffmpeg := some p }
| c, .ffprobe, p => { c with ffprobe := some p }

/-- The errors `resolve.ts` can throw, keyed by the message each carries
in the source (see also the spec's error taxonomy). -/
inductive RErr
| invalidConfig (bin : Bin)
| notFound (bin : Bin) (path : String)
| validationTimeout (path : String)
| invalidBinary (path : String) (bin : Bin)
| spawnFailed (msg : String)
| notResolved (bin : Bin)
deriving DecidableEq, Repr

/-- ASCII letter test, used by the win32 absolute-path check. -/
def isAsciiLetter (c : Char) : Bool :=
  (65 ≤ c.toNat && c.toNat ≤ 90) || (97 ≤ c.toNat && c.toNat ≤ 122)

/-- `node:path`'s win32 `isAbsolute`: a leading slash or backslash, or a
drive letter followed by `:` and a separator. -/
def isWinAbsolute (p : String) : Bool :=
  match p.data with
  | [] => false
  | c :: rest =>
    if c = '/' || c = '\\' then true
    else
      match rest with
      | ':' :: s :: _ => isAsciiLetter c && (s = '/' || s = '\\')
      | _ => false

/-- `path.isAbsolute` as resolved for the process platform: on posix
platforms a path is absolute iff it starts with `/`. -/
def isAbsolute (pf : Platform) (p : String) : Bool :=
  match pf with
  | .win32 => isWinAbsolute p
  | _ =>
    match p.data with
    | '/' :: _ => true
    | _ => false

/-- Observable filesystem / subprocess actions a resolution call
performs: `fileExists` probes (`access`) and `validateBinary`
invocations (spawning the candidate with `-version`). -/
inductive RAction
| existsCheck (path : String)
| validateCall (path : String) (bin : Bin)
deriving DecidableEq, Repr

/-- The environment one resolution call runs against: the host platform,
which paths exist (`fileExists` in the source), and the outcome
`validateBinary` would produce for a given path and tool.  The
event-level semantics of `validateBinary` itself is modelled separately
below; resolution only consumes its settled outcome. -/
structure REnv where
  platform : Platform
  fileExists : String → Bool
  validate : String → Bin → Except RErr Unit

/-- The auto-discovery loop of `resolveBinary`: walk the candidate list,
skip paths that do not exist, try validation on the rest, cache and
return the first success, and throw `notResolved` when the list is
exhausted.  Returns the result, the updated cache, and the trace of
existence checks and validation attempts, in order. -/
def discover (env : REnv) (cache : Cache) (bin : Bin) :
    List String → Except RErr String × Cache × List RAction
| [] => (.error (.notResolved bin), cache, [])
| p :: rest =>
  if env.fileExists p then
    match env.validate p bin with
    | .ok _ => (.ok p, cache.set bin p, [.existsCheck p, .validateCall p bin])
    | .error _ =>
      let r := discover env cache bin rest
      (r.1, r.2.1, .existsCheck p :: .validateCall p bin :: r.2.2)
  else
    let r := discover env cache bin rest
    (r.1, r.2.1, .existsCheck p :: r.2.2)

/-- `resolveBinary` from `resolve.ts` as a pure state transformer over
the cache: return a truthy cached path immediately; otherwise, when a
truthy user path is given, require it absolute (`invalidConfig`),
existing (`notFound`) and valid (the validation error propagates),
caching on success; otherwise fall back to candidate auto-discovery. -/
def resolveBinary (env : REnv) (cache : Cache) (userPath : Option String) (bin : Bin) :
    Except RErr String × Cache × List RAction :=
  match strTruthy (cache.get bin) with
  | some p => (.ok p, cache, [])
  | none =>
    match strTruthy userPath with
    | some up =>
      if isAbsolute env.platform up = false then
        (.error (.invalidConfig bin), cache, [])
      else if env.fileExists up = false then
        (.error (.notFound bin up), cache, [.existsCheck up])
      else
        match env.validate up bin with
        | .ok _ => (.ok up, cache.set bin up, [.existsCheck up, .validateCall up bin])
        | .error e => (.error e, cache, [.existsCheck up, .validateCall up bin])
    | none => discover env cache bin (candidatePaths env.platform bin)

/-- `pullBinary` from `resolve.ts`: read the cached path, throwing when
the tool has not been resolved yet. -/
def pullBinary (cache : Cache) (bin : Bin) : Except String String :=
  match strTruthy (cache.get bin) with
  | some p => .ok p
  | none => .error "requested binary has not been resolved"

/-- A sequence of sequential `resolveBinary` calls threading the
module-level cache, each call given by its user-path argument and tool
kind.  Used to state process-lifetime cache invariants. -/
def runCalls (env : REnv) : Cache → List (Option String × Bin) → Cache
| c, [] => c
| c, (up, b) :: rest => runCalls env (resolveBinary env c up b).2.1 rest


/-! ### Cache and resolution helper lemmas -/

theorem Cache.get_set_same (c : Cache) (b : Bin) (p : String) :
    (c.set b p).get b = some p := by
  cases b <;> rfl

theorem Cache.get_set_other (c : Cache) (b b2 : Bin) (p : String) (h : b ≠ b2) :
    (c.set b2 p).get b = c.get b := by
  cases b <;> cases b2 <;> first | rfl | exact absurd rfl h

theorem strTruthy_some {o : Option String} {q : String} (h : strTruthy o = some q) :
    o = some q ∧ q ≠ "" := by
  cases o with
  | none => simp [strTruthy] at h
  | some s =>
    by_cases hs : s = "" <;> simp [strTruthy, hs] at h
    exact ⟨by rw [h], h ▸ hs⟩

theorem strTruthy_of_ne {s : String} (h : s ≠ "") : strTruthy (some s) = some s := by
  simp [strTruthy, h]

/-- Every candidate path in every platform list is a nonempty string. -/
theorem candidatePaths_ne_empty (pf : Platform) (b : Bin) (p : String)
    (hp : p ∈ candidatePaths pf b) : p ≠ "" := by
  cases pf <;> cases b <;>
    simp only [candidatePaths, Bin.name, List.mem_cons, List.not_mem_nil, or_false] at hp <;>
    rcases hp with rfl | rfl | rfl | rfl | rfl <;> decide

/-- Branch lemma: a truthy cached entry short-circuits `resolveBinary`. -/
theorem resolveBinary_hit {env : REnv} {c : Cache} {b : Bin} {p : String}
    (h : strTruthy (c.get b) = some p) (up : Option String) :
    resolveBinary env c up b = (.ok p, c, []) := by
  unfold resolveBinary; rw [h]

/-- Branch lemma: on a cache miss with a truthy user path, `resolveBinary`
runs the user-path checks. -/
theorem resolveBinary_user_eq {env : REnv} {c : Cache} {upOpt : Option String}
    {b : Bin} {up : String}
    (hc : strTruthy (c.get b) = none) (hu : strTruthy upOpt = some up) :
    resolveBinary env c upOpt b =
      (if isAbsolute env.platform up = false then
        (.error (.invalidConfig b), c, [])
      else if env.fileExists up = false then
        (.error (.notFound b up), c, [.existsCheck up])
      else
        match env.validate up b with
        | .ok _ => (.ok up, c.set b up, [.existsCheck up, .validateCall up b])
        | .error e => (.error e, c, [.existsCheck up, .validateCall up b])) := by
  unfold resolveBinary; rw [hc, hu]

/-- Branch lemma: on a cache miss with a falsy user path, `resolveBinary`
falls back to candidate auto-discovery. -/
theorem resolveBinary_auto_eq {env : REnv} {c : Cache} {upOpt : Option String} {b : Bin}
    (hc : strTruthy (c.get b) = none) (hu : strTruthy upOpt = none) :
    resolveBinary env c upOpt b = discover env c b (candidatePaths env.platform b) := by
  unfold resolveBinary; rw [hc, hu]

/-- A successful `discover` writes exactly the returned path (one of the
candidates) into the cache for the requested tool. -/
theorem discover_ok (env : REnv) (c : Cache) (b : Bin) (l : List String)
    (p : String) (c2 : Cache) (tr : List RAction)
    (h : discover env c b l = (.ok p, c2, tr)) :
    c2 = c.set b p ∧ p ∈ l := by
  induction l generalizing tr with
  | nil => simp [discover] at h
  | cons q rest ih =>
    by_cases hq : env.fileExists q
    · cases hv : env.validate q b with
      | ok _ =>
        simp only [discover, hq, if_true, hv, Prod.mk.injEq] at h
        obtain ⟨h1, h2, -⟩ := h
        cases h1
        exact ⟨h2.symm, List.mem_cons_self _ _⟩
      | error e =>
        simp only [discover, hq, if_true, hv, Prod.mk.injEq] at h
        obtain ⟨h1, h2, -⟩ := h
        obtain ⟨hc2, hmem⟩ := ih (discover env c b rest).2.2 (by rw [← h1, ← h2])
        exact ⟨hc2, List.mem_cons_of_mem q hmem⟩
    · simp only [discover, hq, if_false, Bool.false_eq_true, Prod.mk.injEq] at h
      obtain ⟨h1, h2, -⟩ := h
      obtain ⟨hc2, hmem⟩ := ih (discover env c b rest).2.2 (by rw [← h1, ← h2])
      exact ⟨hc2, List.mem_cons_of_mem q hmem⟩

/-- `discover` either leaves the cache unchanged or writes an entry for
the requested tool only. -/
theorem discover_cache (env : REnv) (c : Cache) (b : Bin) (l : List String) :
    (discover env c b l).2.1 = c ∨ ∃ q, (discover env c b l).2.1 = c.set b q := by
  induction l with
  | nil => exact .inl rfl
  | cons q rest ih =>
    by_cases hq : env.fileExists q
    · cases hv : env.validate q b with
      | ok _ => exact .inr ⟨q, by simp [discover, hq, hv]⟩
      | error e =>
        rcases ih with h | ⟨u, h⟩
        · exact .inl (by simp [discover, hq, hv, h])
        · exact .inr ⟨u, by simp [discover, hq, hv, h]⟩
    · rcases ih with h | ⟨u, h⟩
      · exact .inl (by simp [discover, hq, h])
      · exact .inr ⟨u, by simp [discover, hq, h]⟩

/-- A successful `resolveBinary` call leaves the requested tool's cache
entry holding exactly the returned (nonempty) path. -/
theorem resolveBinary_ok_cache (env : REnv) (c : Cache) (up : Option String) (b : Bin)
    (p : String) (c2 : Cache) (tr : List RAction)
    (h : resolveBinary env c up b = (.ok p, c2, tr)) :
    c2.get b = some p ∧ p ≠ "" := by
  cases hc : strTruthy (c.get b) with
  | some q =>
    rw [resolveBinary_hit hc up] at h
    simp only [Prod.mk.injEq] at h
    obtain ⟨h1, h2, -⟩ := h
    cases h1
    obtain ⟨ho, hne⟩ := strTruthy_some hc
    exact ⟨h2 ▸ ho, hne⟩
  | none =>
    cases hu : strTruthy up with
    | some u =>
      rw [resolveBinary_user_eq hc hu] at h
      obtain ⟨-, hune⟩ := strTruthy_some hu
      by_cases habs : isAbsolute env.platform u
      · rw [if_neg (by simp [habs])] at h
        by_cases hex : env.fileExists u
        · rw [if_neg (by simp [hex])] at h
          cases hv : env.validate u b with
          | ok _ =>
            rw [hv] at h
            simp only [Prod.mk.injEq] at h
            obtain ⟨h1, h2, -⟩ := h
            cases h1
            exact ⟨h2 ▸ Cache.get_set_same c b _, hune⟩
          | error e => rw [hv] at h; simp at h
        · rw [if_pos (by simp [hex])] at h
          simp at h
      · rw [if_pos (by simp [habs])] at h
        simp at h
    | none =>
      rw [resolveBinary_auto_eq hc hu] at h
      obtain ⟨hc2, hmem⟩ := discover_ok env c b _ p c2 tr h
      exact ⟨hc2 ▸ Cache.get_set_same c b p,
        candidatePaths_ne_empty env.platform b p hmem⟩

/-- Any single `resolveBinary` call preserves an existing truthy cache
entry, for any tool kind and user path. -/
theorem resolveBinary_preserves (env : REnv) (c : Cache) (up : Option String)
    (b b2 : Bin) (p : String) (hg : c.get b = some p) (hne : p ≠ "") :
    ((resolveBinary env c up b2).2.1).get b = some p := by
  by_cases hbb : b2 = b
  · subst hbb
    rw [resolveBinary_hit (by rw [hg]; exact strTruthy_of_ne hne) up]
    exact hg
  · cases hc : strTruthy (c.get b2) with
    | some q => rw [resolveBinary_hit hc up]; exact hg
    | none =>
      cases hu : strTruthy up with
      | some u =>
        rw [resolveBinary_user_eq hc hu]
        by_cases habs : isAbsolute env.platform u
        · rw [if_neg (by simp [habs])]
          by_cases hex : env.fileExists u
          · rw [if_neg (by simp [hex])]
            cases hv : env.validate u b2 with
            | ok _ =>
              simpa using (Cache.get_set_other c b b2 u (fun hx => hbb hx.symm)) ▸ hg
            | error e => simpa using hg
          · rw [if_pos (by simp [hex])]; exact hg
        · rw [if_pos (by simp [habs])]; exact hg
      | none =>
        rw [resolveBinary_auto_eq hc hu]
        rcases discover_cache env c b2 (candidatePaths env.platform b2) with hd | ⟨q, hd⟩
        · rw [hd]; exact hg
        · rw [hd, Cache.get_set_other c b b2 q (fun hx => hbb hx.symm)]; exact hg

/-- Any sequence of sequential `resolveBinary` calls preserves an
existing truthy cache entry: once written, a resolved path is never
mutated for the process lifetime. -/
theorem runCalls_preserves (env : REnv) (c : Cache) (b : Bin) (p : String)
    (hg : c.get b = some p) (hne : p ≠ "") (calls : List (Option String × Bin)) :
    (runCalls env c calls).get b = some p := by
  induction calls generalizing c with
  | nil => exact hg
  | cons call rest ih =>
    obtain ⟨up, b2⟩ := call
    exact ih _ (resolveBinary_preserves env c up b b2 p hg hne)

/-- C5: once `resolveBinary` has succeeded for a kind, the returned path
sits in the cache; every later call for that kind — whatever user path
it passes — returns that same path immediately, with an unchanged cache
and no existence checks or validation in its action trace; and no later
sequence of calls ever mutates the cached entry (write-once memoization
for the process lifetime). -/
theorem c5_resolveBinary_memoized (env : REnv) (c c2 : Cache) (up : Option String)
    (b : Bin) (p : String) (tr : List RAction)
    (h : resolveBinary env c up b = (.ok p, c2, tr)) :
    c2.get b = some p ∧
    (∀ up2, resolveBinary env c2 up2 b = (.ok p, c2, [])) ∧
    (∀ calls, (runCalls env c2 calls).get b = some p) := by
  obtain ⟨hg, hne⟩ := resolveBinary_ok_cache env c up b p c2 tr h
  refine ⟨hg, ?_, ?_⟩
  · intro up2
    exact resolveBinary_hit (by rw [hg]; exact strTruthy_of_ne hne) up2
  · intro calls
    exact runCalls_preserves env c2 b p hg hne calls

/-- Witness for C5 at a concrete environment: after a successful
resolution of `/usr/bin/ffmpeg`, a second call with no user path
returns the cached path immediately with an empty action trace. -/
theorem c5_resolveBinary_memoized_witness :
    resolveBinary ⟨.otherUnix, fun _ => true, fun _ _ => .ok ()⟩
        (Cache.mk (some "/usr/bin/ffmpeg") none) none .ffmpeg
      = (.ok "/usr/bin/ffmpeg", Cache.mk (some "/usr/bin/ffmpeg") none, []) := by
  have h := c5_resolveBinary_memoized ⟨.otherUnix, fun _ => true, fun _ _ => .ok ()⟩
    Cache.empty (Cache.mk (some "/usr/bin/ffmpeg") none) (some "/usr/bin/ffmpeg") .ffmpeg
    "/usr/bin/ffmpeg"
    [.existsCheck "/usr/bin/ffmpeg", .validateCall "/usr/bin/ffmpeg" .ffmpeg]
    (by rfl)
  exact h.2.1 none

/-- C6: on a cache miss with a (truthy) user-supplied path: a relative
path fails with `invalidConfig` before touching the filesystem — on any
platform and whether or not the path exists; an absolute but nonexistent
path fails with `notFound` after exactly one existence check; an
existing path whose validation fails propagates that validation error.
In every case the cache is unchanged and the action trace shows no
candidate-list auto-discovery — only the user path itself is ever
checked or validated. -/
theorem c6_user_path_failure_modes (env : REnv) (c : Cache) (up : String) (b : Bin)
    (hc : strTruthy (c.get b) = none) (hup : up ≠ "") :
    (isAbsolute env.platform up = false →
      resolveBinary env c (some up) b = (.error (.invalidConfig b), c, [])) ∧
    (isAbsolute env.platform up = true → env.fileExists up = false →
      resolveBinary env c (some up) b = (.error (.notFound b up), c, [.existsCheck up])) ∧
    (∀ e, isAbsolute env.platform up = true → env.fileExists up = true →
      env.validate up b = .error e →
      resolveBinary env c (some up) b
        = (.error e, c, [.existsCheck up, .validateCall up b])) := by
  have hu : strTruthy (some up) = some up := strTruthy_of_ne hup
  refine ⟨?_, ?_, ?_⟩
  · intro habs
    rw [resolveBinary_user_eq hc hu, if_pos habs]
  · intro habs hex
    rw [resolveBinary_user_eq hc hu, if_neg (by simp [habs]), if_pos hex]
  · intro e habs hex hv
    rw [resolveBinary_user_eq hc hu, if_neg (by simp [habs]), if_neg (by simp [hex]), hv]

/-- Witness for C6 at a concrete input: a relative user path on a unix
platform fails with `invalidConfig`, leaves the cache unchanged and
performs no filesystem actions at all, even though the path exists in
the environment. -/
theorem c6_user_path_failure_modes_witness :
    resolveBinary ⟨.otherUnix, fun _ => true, fun _ _ => .ok ()⟩
        Cache.empty (some "relative/ffmpeg") .ffmpeg
      = (.error (.invalidConfig .ffmpeg), Cache.empty, []) :=
  (c6_user_path_failure_modes ⟨.otherUnix, fun _ => true, fun _ _ => .ok ()⟩
    Cache.empty "relative/ffmpeg" .ffmpeg (by rfl) (by decide)).1 (by rfl)

/-- C10: passing the empty string as the user path behaves exactly like
passing no user path at all — the empty string is falsy, so it is not
rejected as a relative path, and candidate auto-discovery runs instead;
result, cache and action trace all coincide. -/
theorem c10_empty_user_path_is_absent (env : REnv) (c : Cache) (b : Bin) :
    resolveBinary env c (some "") b = resolveBinary env c none b := by
  cases hc : strTruthy (c.get b) with
  | some p => rw [resolveBinary_hit hc (some ""), resolveBinary_hit hc none]
  | none => rw [resolveBinary_auto_eq hc (by rfl), resolveBinary_auto_eq hc (by rfl)]

/-! ### Event-driven child-process machines

`validateBinary`, `getVideoDuration` and `compressVideo` install
handlers on a spawned child process and settle a `Promise`.  Each is
modelled as a state machine folded over the list of events the event
loop delivers, in delivery order; the `Promise` is an outcome slot that
only the first settling handler can write. -/

/-- JS promise resolution: the first settle wins, later settles are
ignored. -/
def settleFirst {α : Type} (st : Option α) (o : α) : Option α :=
  match st with
  | some x => some x
  | none => some o

theorem settleFirst_some {α : Type} {st : Option α} {x : α} (h : st = some x) (o : α) :
    settleFirst st o = some x := by
  rw [h]; rfl

/-- ASCII lower-casing of one character, as `toLowerCase` acts on the
ASCII output of a version banner. -/
def jsLowerChar (c : Char) : Char :=
  if 65 ≤ c.toNat && c.toNat ≤ 90 then Char.ofNat (c.toNat + 32) else c

/-- `String.prototype.toLowerCase` (ASCII range). -/
def jsToLower (s : String) : String := ⟨s.data.map jsLowerChar⟩

/-- Substring containment on character lists (`String.prototype.includes`). -/
def charsContain (needle : List Char) : List Char → Bool
| [] => needle.isEmpty
| c :: rest => needle.isPrefixOf (c :: rest) || charsContain needle rest

/-- `haystack.includes(needle)` for strings. -/
def strIncludes (hay sub : String) : Bool := charsContain sub.data hay.data

/-- Events deliverable to the handlers `validateBinary` installs:
stdout `data`, the validation `setTimeout` callback, process `close`
(with exit code, `null` when killed by signal), and the spawn `error`
event. -/
inductive VEvent
| stdoutData (s : String)
| timeoutFires
| close (code : Option Int)
| errorEvt (msg : String)
deriving DecidableEq, Repr

/-- An event that settles or arms state rather than merely accumulating
output. -/
def VEvent.isTerminal : VEvent → Bool
| .stdoutData _ => false
| _ => true

/-- How a `validateBinary` promise can settle, by the rejection message
each case carries in the source. -/
inductive VOutcome
| ok
| timedOut
| invalidBin
| spawnErr (msg : String)
deriving DecidableEq, Repr

/-- The mutable state of one `validateBinary` call: the accumulated
stdout, the `timeExceeded` flag, whether `clearTimeout` has run, whether
`p.kill()` was called, and the promise slot. -/
structure VState where
  out : String
  timeExceeded : Bool
  timeoutCleared : Bool
  killed : Bool
  settled : Option VOutcome
deriving DecidableEq, Repr

def VState.init : VState := ⟨"", false, false, false, none⟩

/-- One event-handler step of `validateBinary` for expected tool `b`:
stdout accumulates; the timeout callback (if not cleared) sets
`timeExceeded`, kills the child and rejects; `close` clears the timer,
returns early when the timeout already fired, and otherwise resolves
exactly when the exit code is `0` and the lower-cased output contains
the tool name; `error` clears the timer and rejects unless the timeout
already fired. -/
def validStep (b : Bin) (st : VState) : VEvent → VState
| .stdoutData s => { st with out := st.out ++ s }
| .timeoutFires =>
  if st.timeoutCleared then st
  else { st with timeExceeded := true, killed := true,
                 settled := settleFirst st.settled .timedOut }
| .close code =>
  if st.timeExceeded then { st with timeoutCleared := true }
  else if code != some 0 || !(strIncludes (jsToLower st.out) b.name) then
    { st with timeoutCleared := true, settled := settleFirst st.settled .invalidBin }
  else
    { st with timeoutCleared := true, settled := settleFirst st.settled .ok }
| .errorEvt msg =>
  if st.timeExceeded then { st with timeoutCleared := true }
  else { st with timeoutCleared := true, settled := settleFirst st.settled (.spawnErr msg) }

/-- A whole `validateBinary` call: fold the handler over the delivered
events from the initial state. -/
def runValid (b : Bin) (events : List VEvent) : VState :=
  events.foldl (validStep b) VState.init

/-- The stdout text accumulated from a list of events. -/
def collectVOut : List VEvent → String
| [] => ""
| .stdoutData s :: rest => s ++ collectVOut rest
| .timeoutFires :: rest => collectVOut rest
| .close _ :: rest => collectVOut rest
| .errorEvt _ :: rest => collectVOut rest

/-- Non-terminal events only accumulate stdout; all other state fields
pass through unchanged. -/
theorem foldValid_pre (b : Bin) (pre : List VEvent)
    (hpre : ∀ e ∈ pre, e.isTerminal = false) (st : VState) :
    List.foldl (validStep b) st pre = { st with out := st.out ++ collectVOut pre } := by
  induction pre generalizing st with
  | nil => simp [collectVOut]
  | cons e rest ih =>
    cases e with
    | stdoutData s =>
      have hr : ∀ x ∈ rest, VEvent.isTerminal x = false :=
        fun x hx => hpre x (List.mem_cons_of_mem _ hx)
      simp only [List.foldl_cons, validStep, ih hr, collectVOut]
      rw [String.append_assoc]
    | timeoutFires => exact absurd (hpre _ (List.mem_cons_self _ _)) (by simp [VEvent.isTerminal])
    | close code => exact absurd (hpre _ (List.mem_cons_self _ _)) (by simp [VEvent.isTerminal])
    | errorEvt msg => exact absurd (hpre _ (List.mem_cons_self _ _)) (by simp [VEvent.isTerminal])

/-- Once the promise slot holds an outcome, no later event changes it. -/
theorem foldValid_settled (b : Bin) (events : List VEvent) (st : VState) (o : VOutcome)
    (h : st.settled = some o) :
    (List.foldl (validStep b) st events).settled = some o := by
  induction events generalizing st with
  | nil => exact h
  | cons e rest ih =>
    refine ih _ ?_
    cases e <;> simp only [validStep] <;> try exact h
    all_goals split_ifs <;> simp [settleFirst, h]

/-- Once the child has been killed, it stays killed. -/
theorem foldValid_killed (b : Bin) (events : List VEvent) (st : VState)
    (h : st.killed = true) :
    (List.foldl (validStep b) st events).killed = true := by
  induction events generalizing st with
  | nil => exact h
  | cons e rest ih =>
    refine ih _ ?_
    cases e <;> simp only [validStep] <;> try exact h
    all_goals split_ifs <;> simp [h]

/-- C7: for `validateBinary`, (1) if the deadline fires before the child
has exited (no close/error delivered yet), the call settles as
`timedOut`, the child is killed, and — because the `timeExceeded` flag
records the settlement — no later close or error event changes the
outcome; (2) if the child closes before the deadline, the call resolves
exactly when the exit code is zero and the collected stdout,
lower-cased, contains the expected tool's name, and otherwise rejects as
`invalidBin`. -/
theorem c7_validateBinary_timeout_and_exit (b : Bin) :
    (∀ pre rest, (∀ e ∈ pre, VEvent.isTerminal e = false) →
      (runValid b (pre ++ .timeoutFires :: rest)).settled = some .timedOut ∧
      (runValid b (pre ++ .timeoutFires :: rest)).killed = true) ∧
    (∀ pre code rest, (∀ e ∈ pre, VEvent.isTerminal e = false) →
      ((runValid b (pre ++ .close code :: rest)).settled = some .ok ↔
        (code = some 0 ∧ strIncludes (jsToLower (collectVOut pre)) b.name = true)) ∧
      (¬(code = some 0 ∧ strIncludes (jsToLower (collectVOut pre)) b.name = true) →
        (runValid b (pre ++ .close code :: rest)).settled = some .invalidBin)) := by
  constructor
  · intro pre rest hpre
    unfold runValid
    rw [List.foldl_append, foldValid_pre b pre hpre, List.foldl_cons]
    have hstep : validStep b { VState.init with out := VState.init.out ++ collectVOut pre }
        .timeoutFires
        = { out := collectVOut pre, timeExceeded := true, timeoutCleared := false,
            killed := true, settled := some .timedOut } := by
      simp [validStep, VState.init, settleFirst]
    rw [hstep]
    exact ⟨foldValid_settled b rest _ _ rfl, foldValid_killed b rest _ rfl⟩
  · intro pre code rest hpre
    unfold runValid
    rw [List.foldl_append, foldValid_pre b pre hpre, List.foldl_cons]
    by_cases hc : code = some 0
    · by_cases hg : strIncludes (jsToLower (collectVOut pre)) b.name = true
      · have hstep : validStep b { VState.init with out := VState.init.out ++ collectVOut pre }
            (.close code)
            = { out := collectVOut pre, timeExceeded := false, timeoutCleared := true,
                killed := false, settled := some .ok } := by
          simp [validStep, VState.init, settleFirst, hc, hg]
        rw [hstep]
        have hs := foldValid_settled b rest _ _ (show VState.settled
          { out := collectVOut pre, timeExceeded := false, timeoutCleared := true,
            killed := false, settled := some .ok } = some .ok from rfl)
        exact ⟨by rw [hs]; simp [hc, hg], fun hcon => absurd ⟨hc, hg⟩ hcon⟩
      · have hstep : validStep b { VState.init with out := VState.init.out ++ collectVOut pre }
            (.close code)
            = { out := collectVOut pre, timeExceeded := false, timeoutCleared := true,
                killed := false, settled := some .invalidBin } := by
          simp [validStep, VState.init, settleFirst, hc, hg]
        rw [hstep]
        have hs := foldValid_settled b rest _ _ (show VState.settled
          { out := collectVOut pre, timeExceeded := false, timeoutCleared := true,
            killed := false, settled := some .invalidBin } = some .invalidBin from rfl)
        exact ⟨by rw [hs]; simp [hg], fun _ => hs⟩
    · have hstep : validStep b { VState.init with out := VState.init.out ++ collectVOut pre }
          (.close code)
          = { out := collectVOut pre, timeExceeded := false, timeoutCleared := true,
              killed := false, settled := some .invalidBin } := by
        simp [validStep, VState.init, settleFirst, hc]
      rw [hstep]
      have hs := foldValid_settled b rest _ _ (show VState.settled
        { out := collectVOut pre, timeExceeded := false, timeoutCleared := true,
          killed := false, settled := some .invalidBin } = some .invalidBin from rfl)
      exact ⟨by rw [hs]; simp [hc], fun _ => hs⟩

/-- Witness for C7 at a concrete run: stdout "x" arrives, then the
deadline fires, then the killed child closes late with a nonzero code —
the call settles as `timedOut` with the child killed, and the late close
does not change the outcome. -/
theorem c7_validateBinary_timeout_and_exit_witness :
    (runValid .ffmpeg [.stdoutData "x", .timeoutFires, .close (some 1)]).settled
        = some .timedOut ∧
    (runValid .ffmpeg [.stdoutData "x", .timeoutFires, .close (some 1)]).killed = true :=
  (c7_validateBinary_timeout_and_exit .ffmpeg).1 [.stdoutData "x"] [.close (some 1)]
    (by decide)

/-- Events deliverable to the handlers `compressVideo` installs: stderr
`data`, the encode-timeout `setTimeout` callback (never cleared in the
source), process `close`, and the spawn `error` event. -/
inductive CEvent
| stderrData (s : String)
| timeoutFires
| close (code : Option Int)
| errorEvt (msg : String)
deriving DecidableEq, Repr

/-- An event that can settle the promise rather than merely accumulate
stderr. -/
def CEvent.isTerminal : CEvent → Bool
| .stderrData _ => false
| _ => true

/-- How a `compressVideo` promise can settle, by the rejection each case
carries in the source: resolve on zero exit; `timedOut` from the timer
callback; `exitErr` with the exit code and collected stderr; `spawnErr`
from the `error` event. -/
inductive COutcome
| ok
| timedOut
| exitErr (code : Option Int) (errOut : String)
| spawnErr (msg : String)
deriving DecidableEq, Repr

/-- The state of one `compressVideo` call: accumulated stderr, whether
`ffmpeg.kill()` has run, and the promise slot.  Unlike `validateBinary`
there is no `timeExceeded` flag and the timer is never cleared; only the
promise's first-settle-wins semantics arbitrates between the timeout and
the exit handlers. -/
structure CState where
  errOut : String
  killed : Bool
  settled : Option COutcome
deriving DecidableEq, Repr

def CState.init : CState := ⟨"", false, none⟩

/-- One event-handler step of `compressVideo`. -/
def compressStep (st : CState) : CEvent → CState
| .stderrData s => { st with errOut := st.errOut ++ s }
| .timeoutFires =>
  { st with killed := true, settled := settleFirst st.settled .timedOut }
| .close code =>
  if code = some 0 then { st with settled := settleFirst st.settled .ok }
  else { st with settled := settleFirst st.settled (.exitErr code st.errOut) }
| .errorEvt msg => { st with settled := settleFirst st.settled (.spawnErr msg) }

/-- A whole `compressVideo` call: fold the handler over the delivered
events from the initial state. -/
def runCompress (events : List CEvent) : CState :=
  events.foldl compressStep CState.init

/-- The stderr text accumulated from a list of events. -/
def collectCErr : List CEvent → String
| [] => ""
| .stderrData s :: rest => s ++ collectCErr rest
| .timeoutFires :: rest => collectCErr rest
| .close _ :: rest => collectCErr rest
| .errorEvt _ :: rest => collectCErr rest

/-- Non-terminal events only accumulate stderr. -/
theorem foldCompress_pre (pre : List CEvent)
    (hpre : ∀ e ∈ pre, e.isTerminal = false) (st : CState) :
    List.foldl compressStep st pre = { st with errOut := st.errOut ++ collectCErr pre } := by
  induction pre generalizing st with
  | nil => simp [collectCErr]
  | cons e rest ih =>
    cases e with
    | stderrData s =>
      have hr : ∀ x ∈ rest, CEvent.isTerminal x = false :=
        fun x hx => hpre x (List.mem_cons_of_mem _ hx)
      simp only [List.foldl_cons, compressStep, ih hr, collectCErr]
      rw [String.append_assoc]
    | timeoutFires => exact absurd (hpre _ (List.mem_cons_self _ _)) (by simp [CEvent.isTerminal])
    | close code => exact absurd (hpre _ (List.mem_cons_self _ _)) (by simp [CEvent.isTerminal])
    | errorEvt msg => exact absurd (hpre _ (List.mem_cons_self _ _)) (by simp [CEvent.isTerminal])

/-- Once the promise slot holds an outcome, no later event changes it. -/
theorem foldCompress_settled (events : List CEvent) (st : CState) (o : COutcome)
    (h : st.settled = some o) :
    (List.foldl compressStep st events).settled = some o := by
  induction events generalizing st with
  | nil => exact h
  | cons e rest ih =>
    refine ih _ ?_
    cases e <;> simp only [compressStep] <;>
      first
        | exact h
        | exact settleFirst_some h _
        | (split_ifs <;> simp [settleFirst_some h])

/-- Once the child has been killed, it stays killed. -/
theorem foldCompress_killed (events : List CEvent) (st : CState)
    (h : st.killed = true) :
    (List.foldl compressStep st events).killed = true := by
  induction events generalizing st with
  | nil => exact h
  | cons e rest ih =>
    refine ih _ ?_
    cases e <;> simp only [compressStep] <;>
      first
        | exact h
        | rfl
        | (split_ifs <;> simp [h])

/-- C2: if the encoder child has not exited when the deadline fires (no
close or error event delivered before the timer callback), the child is
killed and the call settles as `timedOut`; whatever close or error
events the killed process delivers afterwards, the outcome remains
`timedOut` — in particular the call never also reports an encode-failure
(`exitErr`) or spawn-error outcome, settling exactly once. -/
theorem c2_compress_timeout_precedence (pre rest : List CEvent)
    (hpre : ∀ e ∈ pre, CEvent.isTerminal e = false) :
    (runCompress (pre ++ .timeoutFires :: rest)).settled = some .timedOut ∧
    (runCompress (pre ++ .timeoutFires :: rest)).killed = true ∧
    (∀ code errOut,
      (runCompress (pre ++ .timeoutFires :: rest)).settled ≠ some (.exitErr code errOut)) ∧
    (∀ msg, (runCompress (pre ++ .timeoutFires :: rest)).settled ≠ some (.spawnErr msg)) := by
  unfold runCompress
  rw [List.foldl_append, foldCompress_pre pre hpre, List.foldl_cons]
  have hstep : compressStep { CState.init with errOut := CState.init.errOut ++ collectCErr pre }
      .timeoutFires
      = { errOut := collectCErr pre, killed := true, settled := some .timedOut } := by
    simp [compressStep, CState.init, settleFirst]
  rw [hstep]
  have hs := foldCompress_settled rest _ _ (show CState.settled
    { errOut := collectCErr pre, killed := true, settled := some .timedOut }
      = some .timedOut from rfl)
  refine ⟨hs, foldCompress_killed rest _ rfl, ?_, ?_⟩
  · intro code errOut; rw [hs]; simp
  · intro msg; rw [hs]; simp

/-- Witness for C2 at a concrete run: stderr arrives, the deadline
fires, then the killed child closes late with a `null` code — the
outcome is `timedOut`, the child is killed, and no encode-failure is
reported. -/
theorem c2_compress_timeout_precedence_witness :
    (runCompress [.stderrData "frame 1", .timeoutFires, .close none]).settled
        = some .timedOut ∧
    (runCompress [.stderrData "frame 1", .timeoutFires, .close none]).killed = true :=
  have h := c2_compress_timeout_precedence [.stderrData "frame 1"] [.close none] (by decide)
  ⟨h.1, h.2.1⟩

/-! ### Decimal rendering of JS numbers

`native.ts` interpolates numbers into strings (`ac_in_${Date.now()}`,
`(${videoBitrate}k)`, exit codes).  Integer-valued JS numbers render in
plain decimal; these functions model that rendering. -/

/-- The decimal digit character for a digit value. -/
def decChar (d : ℕ) : Char := Char.ofNat (48 + d)

/-- Decimal rendering of a natural number. -/
def natDecimal (n : ℕ) : String :=
  if n = 0 then "0" else ⟨(Nat.digits 10 n).reverse.map decChar⟩

/-- Decimal rendering of an integer-valued JS number. -/
def intDecimal (z : ℤ) : String :=
  if z < 0 then "-" ++ natDecimal z.natAbs else natDecimal z.natAbs

theorem decChar_toNat {d : ℕ} (h : d < 10) : (decChar d).toNat = 48 + d := by
  interval_cases d <;> decide

/-- `decChar` is injective on digit values. -/
theorem decChar_inj {a b : ℕ} (ha : a < 10) (hb : b < 10)
    (h : decChar a = decChar b) : a = b := by
  have := congrArg Char.toNat h
  rw [decChar_toNat ha, decChar_toNat hb] at this
  omega

/-- Mapping `decChar` over digit lists is injective. -/
theorem map_decChar_inj : ∀ {l₁ l₂ : List ℕ}, (∀ x ∈ l₁, x < 10) → (∀ x ∈ l₂, x < 10) →
    l₁.map decChar = l₂.map decChar → l₁ = l₂ := by
  intro l₁
  induction l₁ with
  | nil =>
    intro l₂ _ _ h
    cases l₂ with
    | nil => rfl
    | cons b t => simp at h
  | cons a t ih =>
    intro l₂ h1 h2 h
    cases l₂ with
    | nil => simp at h
    | cons b t2 =>
      simp only [List.map_cons, List.cons.injEq] at h
      obtain ⟨hab, ht⟩ := h
      have hab2 : a = b :=
        decChar_inj (h1 a (List.mem_cons_self _ _)) (h2 b (List.mem_cons_self _ _)) hab
      rw [hab2, ih (fun x hx => h1 x (List.mem_cons_of_mem _ hx))
        (fun x hx => h2 x (List.mem_cons_of_mem _ hx)) ht]

/-- Every character of a rendered natural number is a decimal digit. -/
theorem natDecimal_chars (n : ℕ) :
    ∀ c ∈ (natDecimal n).data, 48 ≤ c.toNat ∧ c.toNat ≤ 57 := by
  intro c hc
  by_cases hn : n = 0
  · subst hn
    rw [show (natDecimal 0).data = ['0'] from rfl] at hc
    simp at hc
    subst hc
    decide
  · simp only [natDecimal, if_neg hn] at hc
    obtain ⟨d, hd, rfl⟩ := List.mem_map.mp hc
    have hd10 : d < 10 :=
      Nat.digits_lt_base (by norm_num) (List.mem_reverse.mp hd)
    rw [decChar_toNat hd10]
    omega

/-- A natural number whose decimal digit expansion is the single digit
`0` is zero. -/
theorem digits_single_zero {n : ℕ} (hd : Nat.digits 10 n = [0]) : n = 0 := by
  have hn0 := Nat.ofDigits_digits 10 n
  rw [hd] at hn0
  simpa [Nat.ofDigits] using hn0.symm

/-- Decimal rendering of natural numbers is injective. -/
theorem natDecimal_inj {m n : ℕ} (h : natDecimal m = natDecimal n) : m = n := by
  have hdata := congrArg String.data h
  by_cases hm : m = 0 <;> by_cases hn : n = 0
  · rw [hm, hn]
  · exfalso
    simp only [natDecimal, hm, hn, if_pos, if_neg, if_true, if_false] at hdata
    rcases hd : Nat.digits 10 n with _ | ⟨d, ds⟩
    · exact hn (Nat.digits_eq_nil_iff_eq_zero.mp hd)
    · rcases ds with _ | ⟨d2, ds2⟩
      · rw [hd] at hdata
        simp at hdata
        have hd10 : d < 10 := Nat.digits_lt_base (by norm_num)
          (by rw [hd]; exact List.mem_cons_self _ _)
        have h48 : (48 : ℕ) = 48 + d := by
          have := congrArg Char.toNat hdata
          rw [decChar_toNat hd10] at this
          simpa using this
        have hdz : d = 0 := by omega
        rw [hdz] at hd
        exact hn (digits_single_zero hd)
      · rw [hd] at hdata
        have hlen := congrArg List.length hdata
        simp at hlen
  · exfalso
    simp only [natDecimal, hm, hn, if_pos, if_neg, if_true, if_false] at hdata
    rcases hd : Nat.digits 10 m with _ | ⟨d, ds⟩
    · exact hm (Nat.digits_eq_nil_iff_eq_zero.mp hd)
    · rcases ds with _ | ⟨d2, ds2⟩
      · rw [hd] at hdata
        simp at hdata
        have hd10 : d < 10 := Nat.digits_lt_base (by norm_num)
          (by rw [hd]; exact List.mem_cons_self _ _)
        have h48 : 48 + d = (48 : ℕ) := by
          have := congrArg Char.toNat hdata
          rw [decChar_toNat hd10] at this
          simpa using this
        have hdz : d = 0 := by omega
        rw [hdz] at hd
        exact hm (digits_single_zero hd)
      · rw [hd] at hdata
        have hlen := congrArg List.length hdata
        simp at hlen
  · simp only [natDecimal, hm, hn, if_neg, if_false] at hdata
    have hmap : ((Nat.digits 10 m).reverse).map decChar
        = ((Nat.digits 10 n).reverse).map decChar := hdata
    have hdig : (Nat.digits 10 m).reverse = (Nat.digits 10 n).reverse :=
      map_decChar_inj
        (fun x hx => Nat.digits_lt_base (by norm_num) (List.mem_reverse.mp hx))
        (fun x hx => Nat.digits_lt_base (by norm_num) (List.mem_reverse.mp hx)) hmap
    have hdd := List.reverse_inj.mp hdig
    calc m = Nat.ofDigits 10 (Nat.digits 10 m) := (Nat.ofDigits_digits 10 m).symm
    _ = Nat.ofDigits 10 (Nat.digits 10 n) := by rw [hdd]
    _ = n := Nat.ofDigits_digits 10 n

/-! ### JS number parsing (`parseFloat`) and trimming

`getVideoDuration` computes `parseFloat(out.trim())` and rejects when
the result is `NaN` or not positive.  A JS number is modelled as `NaN`,
an infinity, or an exact rational (double rounding is not modelled; no
theorem below depends on rounding, only on sign, NaN-ness and
infiniteness of parsed values). -/

/-- A JS number value as classified by `getVideoDuration`. -/
inductive JsNum
| nan
| posInf
| negInf
| num (q : ℚ)
deriving DecidableEq, Repr

/-- Whitespace for `String.prototype.trim` (the ASCII white-space set). -/
def isWsChar (c : Char) : Bool :=
  c = ' ' || c = '\t' || c = '\n' || c = '\r' || c = '\x0b' || c = '\x0c'

/-- `String.prototype.trim`. -/
def trimChars (l : List Char) : List Char :=
  ((l.dropWhile isWsChar).reverse.dropWhile isWsChar).reverse

def jsTrim (s : String) : String := ⟨trimChars s.data⟩

/-- Decimal digit test for parsing. -/
def isDigitCh (c : Char) : Bool := 48 ≤ c.toNat && c.toNat ≤ 57

/-- The digit value of a digit character. -/
def digVal (c : Char) : ℕ := c.toNat - 48

/-- The natural number denoted by a digit string (most significant
first). -/
def digitsVal (l : List Char) : ℕ :=
  l.foldl (fun acc c => acc * 10 + digVal c) 0

/-- The integer exponent after `e`/`E` in a decimal literal: an optional
sign and then leading digits (no digits denote a zero exponent, which
leaves the value unchanged, as `parseFloat` then stops before the
exponent marker). -/
def parseExp : List Char → ℤ
| '+' :: rest => (digitsVal (rest.takeWhile isDigitCh) : ℤ)
| '-' :: rest => -(digitsVal (rest.takeWhile isDigitCh) : ℤ)
| rest => (digitsVal (rest.takeWhile isDigitCh) : ℤ)

/-- ECMA-262 `parseFloat` after the optional sign: the literal
`Infinity`, or a decimal literal `digits [. digits] [e sign digits]` of
which at least one digit must be present; anything else is `NaN`.  The
longest valid prefix is read; the value is kept as an exact rational. -/
def parseUnsigned (neg : Bool) (l : List Char) : JsNum :=
  if ("Infinity".data).isPrefixOf l then (if neg then .negInf else .posInf)
  else
    let ip := l.takeWhile isDigitCh
    let r1 := l.dropWhile isDigitCh
    let fp :=
      match r1 with
      | '.' :: rest => rest.takeWhile isDigitCh
      | _ => []
    let r2 :=
      match r1 with
      | '.' :: rest => rest.dropWhile isDigitCh
      | _ => r1
    if ip.isEmpty && fp.isEmpty then .nan
    else
      let mantissa : ℚ := (digitsVal ip : ℚ) + (digitsVal fp : ℚ) / (10 : ℚ) ^ fp.length
      let exp : ℤ :=
        match r2 with
        | 'e' :: rest => parseExp rest
        | 'E' :: rest => parseExp rest
        | _ => 0
      let q := mantissa * (10 : ℚ) ^ exp
      .num (if neg then -q else q)

/-- ECMA-262 `parseFloat`: trim leading whitespace, read an optional
sign, then the unsigned literal. -/
def parseFloatJS (s : String) : JsNum :=
  match s.data.dropWhile isWsChar with
  | '+' :: rest => parseUnsigned false rest
  | '-' :: rest => parseUnsigned true rest
  | rest => parseUnsigned false rest

/-- `isNaN(x)`. -/
def JsNum.isNaN : JsNum → Bool
| .nan => true
| _ => false

/-- `x <= 0` in JS comparison semantics (`NaN <= 0` is false). -/
def JsNum.leZero : JsNum → Bool
| .nan => false
| .posInf => false
| .negInf => true
| .num q => decide (q ≤ 0)

/-! ### `getVideoDuration` as an event machine -/

/-- Events deliverable to the handlers `getVideoDuration` installs on
the spawned `ffprobe`. -/
inductive PEvent
| stdoutData (s : String)
| stderrData (s : String)
| close (code : Option Int)
| errorEvt (msg : String)
deriving DecidableEq, Repr

/-- An event that can settle the promise rather than merely accumulate
output. -/
def PEvent.isTerminal : PEvent → Bool
| .stdoutData _ => false
| .stderrData _ => false
| _ => true

/-- How a `getVideoDuration` promise can settle: resolve with the parsed
duration; reject for a nonzero exit code (carrying the collected
stderr), for unparseable or non-positive output, or for a spawn
error. -/
inductive POutcome
| resolved (d : JsNum)
| exitErr (code : Option Int) (errOut : String)
| invalidData
| spawnErr (msg : String)
deriving DecidableEq, Repr

/-- The rejection message each failing `POutcome` carries in the source
(`resolved` rejects nothing and renders empty here). -/
def jsCodeStr : Option Int → String
| none => "null"
| some z => intDecimal z

def pOutcomeMsg : POutcome → String
| .resolved _ => ""
| .exitErr code errOut => "ffprobe exited with " ++ jsCodeStr code ++ ", " ++ jsTrim errOut
| .invalidData => "ffprobe invalid data"
| .spawnErr msg => "failed to spawn ffprobe: " ++ msg

/-- The state of one `getVideoDuration` call. -/
structure PState where
  out : String
  errOut : String
  settled : Option POutcome
deriving DecidableEq, Repr

def PState.init : PState := ⟨"", "", none⟩

/-- One event-handler step of `getVideoDuration`: stdout and stderr
accumulate; `close` rejects on a nonzero code, otherwise parses
`parseFloat(out.trim())` and rejects when the result is `NaN` or not
positive, resolving with the parsed duration otherwise; `error`
rejects. -/
def probeStep (st : PState) : PEvent → PState
| .stdoutData s => { st with out := st.out ++ s }
| .stderrData s => { st with errOut := st.errOut ++ s }
| .close code =>
  if code != some 0 then
    { st with settled := settleFirst st.settled (.exitErr code st.errOut) }
  else
    let duration := parseFloatJS (jsTrim st.out)
    if duration.isNaN || duration.leZero then
      { st with settled := settleFirst st.settled .invalidData }
    else
      { st with settled := settleFirst st.settled (.resolved duration) }
| .errorEvt msg => { st with settled := settleFirst st.settled (.spawnErr msg) }

/-- A whole `getVideoDuration` call: fold the handler over the delivered
events from the initial state. -/
def runProbe (events : List PEvent) : PState :=
  events.foldl probeStep PState.init

/-- The stdout text accumulated from a list of events. -/
def collectPOut : List PEvent → String
| [] => ""
| .stdoutData s :: rest => s ++ collectPOut rest
| .stderrData _ :: rest => collectPOut rest
| .close _ :: rest => collectPOut rest
| .errorEvt _ :: rest => collectPOut rest

/-- The stderr text accumulated from a list of events. -/
def collectPErr : List PEvent → String
| [] => ""
| .stdoutData _ :: rest => collectPErr rest
| .stderrData s :: rest => s ++ collectPErr rest
| .close _ :: rest => collectPErr rest
| .errorEvt _ :: rest => collectPErr rest

/-- Non-terminal events only accumulate stdout and stderr. -/
theorem foldProbe_pre (pre : List PEvent)
    (hpre : ∀ e ∈ pre, e.isTerminal = false) (st : PState) :
    List.foldl probeStep st pre
      = { st with out := st.out ++ collectPOut pre,
                  errOut := st.errOut ++ collectPErr pre } := by
  induction pre generalizing st with
  | nil => simp [collectPOut, collectPErr]
  | cons e rest ih =>
    cases e with
    | stdoutData s =>
      have hr : ∀ x ∈ rest, PEvent.isTerminal x = false :=
        fun x hx => hpre x (List.mem_cons_of_mem _ hx)
      simp only [List.foldl_cons, probeStep, ih hr, collectPOut, collectPErr]
      rw [String.append_assoc]
    | stderrData s =>
      have hr : ∀ x ∈ rest, PEvent.isTerminal x = false :=
        fun x hx => hpre x (List.mem_cons_of_mem _ hx)
      simp only [List.foldl_cons, probeStep, ih hr, collectPOut, collectPErr]
      rw [String.append_assoc]
    | close code => exact absurd (hpre _ (List.mem_cons_self _ _)) (by simp [PEvent.isTerminal])
    | errorEvt msg => exact absurd (hpre _ (List.mem_cons_self _ _)) (by simp [PEvent.isTerminal])

/-- Once the promise slot holds an outcome, no later event changes it. -/
theorem foldProbe_settled (events : List PEvent) (st : PState) (o : POutcome)
    (h : st.settled = some o) :
    (List.foldl probeStep st events).settled = some o := by
  induction events generalizing st with
  | nil => exact h
  | cons e rest ih =>
    refine ih _ ?_
    cases e <;> simp only [probeStep] <;>
      first
        | exact h
        | exact settleFirst_some h _
        | (split_ifs <;> simp [settleFirst_some h])

/-! ### Substring-containment facts -/

theorem isPrefixOf_append_left (l t : List Char) : l.isPrefixOf (l ++ t) = true := by
  induction l with
  | nil => simp [List.isPrefixOf]
  | cons a l ih => simp [List.isPrefixOf, ih]

theorem charsContain_of_isPrefixOf {needle hay : List Char}
    (h : needle.isPrefixOf hay = true) : charsContain needle hay = true := by
  cases hay with
  | nil =>
    cases needle with
    | nil => rfl
    | cons a t => simp [List.isPrefixOf] at h
  | cons c rest => simp [charsContain, h]

theorem charsContain_infix (needle x y : List Char) :
    charsContain needle (x ++ (needle ++ y)) = true := by
  induction x with
  | nil =>
    exact charsContain_of_isPrefixOf (isPrefixOf_append_left needle y)
  | cons a t ih => simp [charsContain, ih]

/-- A string embedded between two others is found by `includes`. -/
theorem strIncludes_append (a s b : String) : strIncludes (a ++ s ++ b) s = true := by
  unfold strIncludes
  rw [String.data_append, String.data_append, List.append_assoc]
  exact charsContain_infix s.data a.data b.data

/-- A string is found by `includes` at the end of a concatenation. -/
theorem strIncludes_append_right (a s : String) : strIncludes (a ++ s) s = true := by
  unfold strIncludes
  rw [String.data_append, show s.data = s.data ++ [] from (List.append_nil _).symm]
  rw [List.append_nil]
  have := charsContain_infix s.data a.data []
  simpa using this

/-- C8 (amended): in `getVideoDuration`, a nonzero probe exit code
rejects with the exit error, whose message surfaces the collected
(trimmed) stderr text; on a zero exit code the call rejects as invalid
data exactly when `parseFloat` of the trimmed stdout is `NaN` or not
positive, and otherwise resolves with the parsed duration — which, per
the counterexample, may be the non-finite `Infinity`. -/
theorem c8_probe_failure_modes (pre : List PEvent) (code : Option Int) (rest : List PEvent)
    (hpre : ∀ e ∈ pre, PEvent.isTerminal e = false) :
    (code ≠ some 0 →
      (runProbe (pre ++ .close code :: rest)).settled
          = some (.exitErr code (collectPErr pre)) ∧
      strIncludes (pOutcomeMsg (.exitErr code (collectPErr pre)))
          (jsTrim (collectPErr pre)) = true) ∧
    (code = some 0 →
      (((parseFloatJS (jsTrim (collectPOut pre))).isNaN
          || (parseFloatJS (jsTrim (collectPOut pre))).leZero) = true →
        (runProbe (pre ++ .close code :: rest)).settled = some .invalidData) ∧
      (((parseFloatJS (jsTrim (collectPOut pre))).isNaN
          || (parseFloatJS (jsTrim (collectPOut pre))).leZero) = false →
        (runProbe (pre ++ .close code :: rest)).settled
            = some (.resolved (parseFloatJS (jsTrim (collectPOut pre)))))) := by
  constructor
  · intro hcode
    have hbne : (code != some 0) = true := bne_iff_ne.mpr hcode
    constructor
    · unfold runProbe
      rw [List.foldl_append, foldProbe_pre pre hpre, List.foldl_cons]
      have hstep : probeStep { PState.init with out := PState.init.out ++ collectPOut pre, errOut := PState.init.errOut ++ collectPErr pre } (.close code)
          = { out := collectPOut pre, errOut := collectPErr pre,
              settled := some (.exitErr code (collectPErr pre)) } := by
        simp [probeStep, PState.init, settleFirst, hbne]
      rw [hstep]
      exact foldProbe_settled rest _ _ rfl
    · show strIncludes
        ("ffprobe exited with " ++ jsCodeStr code ++ ", " ++ jsTrim (collectPErr pre))
        (jsTrim (collectPErr pre)) = true
      exact strIncludes_append_right _ _
  · intro hcode
    subst hcode
    have hbne : ((some (0 : Int)) != some 0) = false := by simp
    constructor
    · intro hbad
      unfold runProbe
      rw [List.foldl_append, foldProbe_pre pre hpre, List.foldl_cons]
      have hstep : probeStep { PState.init with out := PState.init.out ++ collectPOut pre, errOut := PState.init.errOut ++ collectPErr pre } (.close (some 0))
          = { out := collectPOut pre, errOut := collectPErr pre,
              settled := some .invalidData } := by
        simp [probeStep, PState.init, settleFirst, hbne]
        intro hcon
        simpa [hcon] using hbad
      rw [hstep]
      exact foldProbe_settled rest _ _ rfl
    · intro hgood
      unfold runProbe
      rw [List.foldl_append, foldProbe_pre pre hpre, List.foldl_cons]
      have hstep : probeStep { PState.init with out := PState.init.out ++ collectPOut pre, errOut := PState.init.errOut ++ collectPErr pre } (.close (some 0))
          = { out := collectPOut pre, errOut := collectPErr pre,
              settled := some (.resolved (parseFloatJS (jsTrim (collectPOut pre)))) } := by
        simp [probeStep, PState.init, settleFirst, hbne]
        simpa using hgood
      rw [hstep]
      exact foldProbe_settled rest _ _ rfl

/-- Witness for C8 at a concrete run: stderr "boom" arrives, then the
probe closes with exit code 1 — the call rejects with the exit error
carrying that stderr text. -/
theorem c8_probe_failure_modes_witness :
    (runProbe [.stderrData "boom", .close (some 1)]).settled
        = some (.exitErr (some 1) "boom") :=
  ((c8_probe_failure_modes [.stderrData "boom"] (some 1) [] (by decide)).1
    (by decide)).1

/-- Counterexample to C8 as stated: a probe stdout of `"Infinity"`
parses to the non-finite value `Infinity`, which is neither `NaN` nor
`<= 0`, so `getVideoDuration` resolves with it instead of failing with
`ProbeFailed` — the non-finiteness branch claimed by the spec does not
exist in the code. -/
theorem c8_nonfinite_output_accepted :
    (runProbe [.stdoutData "Infinity", .close (some 0)]).settled
        = some (.resolved .posInf) := by
  rfl

/-! ### Temp-file paths (`handleFile` preamble) -/

/-- The extension characters `path.extname` returns: the basename's
suffix from its last dot, empty when there is no dot or the only dot
leads the basename. -/
def extnameChars (s : String) : List Char :=
  let base := (s.data.reverse.takeWhile (fun c => c ≠ '/')).reverse
  let suf := base.reverse.takeWhile (fun c => c ≠ '.')
  if suf.length = base.length then []
  else if base.length = suf.length + 1 then []
  else '.' :: suf.reverse

/-- `path.extname`. -/
def extname (s : String) : String := ⟨extnameChars s⟩

/-- `path.extname(fileName) || ".mp4"` — the empty extension string is
falsy, so the extension defaults to `.mp4`. -/
def fileExtOf (fileName : String) : String :=
  if extname fileName = "" then ".mp4" else extname fileName

/-- `path.join` for a normalized directory with no trailing
separator. -/
def pathJoin (dir name : String) : String := dir ++ ("/" ++ name)

/-- The temp input path `handleFile` derives:
`path.join(os.tmpdir(), "ac_in_" + Date.now() + fileExt)`. -/
def inPath (tmpdir : String) (now : ℕ) (fileName : String) : String :=
  pathJoin tmpdir ("ac_in_" ++ (natDecimal now ++ fileExtOf fileName))

/-- The temp output path `handleFile` derives:
`path.join(os.tmpdir(), "ac_out_" + Date.now() + fileExt)`. -/
def outPath (tmpdir : String) (now : ℕ) (fileName : String) : String :=
  pathJoin tmpdir ("ac_out_" ++ (natDecimal now ++ fileExtOf fileName))

/-- The chosen extension always starts with a dot. -/
theorem fileExtOf_shape (f : String) : ∃ l, (fileExtOf f).data = '.' :: l := by
  unfold fileExtOf extname extnameChars
  by_cases h1 : ((((f.data.reverse.takeWhile (fun c => c ≠ '/')).reverse).reverse.takeWhile
      (fun c => c ≠ '.')).length
      = ((f.data.reverse.takeWhile (fun c => c ≠ '/')).reverse).length)
  · simp only [h1, if_true]
    exact ⟨['m', 'p', '4'], rfl⟩
  · simp only [h1, if_false]
    by_cases h2 : (((f.data.reverse.takeWhile (fun c => c ≠ '/')).reverse).length
        = (((f.data.reverse.takeWhile (fun c => c ≠ '/')).reverse).reverse.takeWhile
            (fun c => c ≠ '.')).length + 1)
    · simp only [h2, if_true]
      exact ⟨['m', 'p', '4'], rfl⟩
    · simp only [h2, if_false]
      have hne : String.mk ('.' :: (((f.data.reverse.takeWhile
          (fun c => c ≠ '/')).reverse).reverse.takeWhile (fun c => c ≠ '.')).reverse) ≠ "" := by
        intro hcon
        have := congrArg String.data hcon
        simp at this
      refine ⟨(((f.data.reverse.takeWhile
          (fun c => c ≠ '/')).reverse).reverse.takeWhile (fun c => c ≠ '.')).reverse, ?_⟩
      rw [if_neg hne]

/-- Strings are equal when their character lists are. -/
theorem strData_inj {s t : String} (h : s.data = t.data) : s = t := by
  cases s; cases t; exact congrArg String.mk (by simpa using h)

/-- Splitting a digit run followed by a dot-led suffix is unambiguous:
if two such concatenations agree, the digit runs agree. -/
theorem append_dot_split : ∀ (d₁ : List Char) {d₂ l₁ l₂ : List Char},
    (∀ c ∈ d₁, 48 ≤ c.toNat ∧ c.toNat ≤ 57) →
    (∀ c ∈ d₂, 48 ≤ c.toNat ∧ c.toNat ≤ 57) →
    d₁ ++ '.' :: l₁ = d₂ ++ '.' :: l₂ → d₁ = d₂ := by
  intro d₁
  induction d₁ with
  | nil =>
    intro d₂ l₁ l₂ _ h2 h
    cases d₂ with
    | nil => rfl
    | cons b t =>
      exfalso
      simp only [List.nil_append, List.cons_append, List.cons.injEq] at h
      have hb := h2 b (List.mem_cons_self _ _)
      rw [← h.1, show ('.' : Char).toNat = 46 from rfl] at hb
      omega
  | cons a t ih =>
    intro d₂ l₁ l₂ h1 h2 h
    cases d₂ with
    | nil =>
      exfalso
      simp only [List.nil_append, List.cons_append, List.cons.injEq] at h
      have ha := h1 a (List.mem_cons_self _ _)
      rw [h.1, show ('.' : Char).toNat = 46 from rfl] at ha
      omega
    | cons b t2 =>
      simp only [List.cons_append, List.cons.injEq] at h
      rw [h.1, ih (fun c hc => h1 c (List.mem_cons_of_mem _ hc))
        (fun c hc => h2 c (List.mem_cons_of_mem _ hc)) h.2]

/-- Counterexample to C9 as stated: `Date.now()` has only millisecond
resolution, so two distinct compress calls that run in the same
millisecond derive the same temp input path (here: same timestamp, two
different file names with the same extension collide). -/
theorem c9_same_millisecond_collision :
    inPath "/tmp" 0 "a.mp4" = inPath "/tmp" 0 "b.mp4" ∧ ("a.mp4" : String) ≠ "b.mp4" := by
  constructor
  · rfl
  · decide

/-- C9 (amended): within one call the input and output paths always
differ; two calls whose `Date.now()` millisecond timestamps differ never
derive the same path (calls in the same millisecond may collide — the
uniqueness source is only a millisecond timestamp); and the extension
defaults to `.mp4` when the filename carries none. -/
theorem c9_paths_amended (tmpdir f₁ f₂ : String) (t₁ t₂ : ℕ) :
    inPath tmpdir t₁ f₁ ≠ outPath tmpdir t₂ f₂ ∧
    (t₁ ≠ t₂ → inPath tmpdir t₁ f₁ ≠ inPath tmpdir t₂ f₂) ∧
    (t₁ ≠ t₂ → outPath tmpdir t₁ f₁ ≠ outPath tmpdir t₂ f₂) ∧
    (extname f₁ = "" → fileExtOf f₁ = ".mp4") := by
  have hslash : ("/" : String).data = ['/'] := rfl
  have hin : ("ac_in_" : String).data = ['a', 'c', '_', 'i', 'n', '_'] := rfl
  have hout : ("ac_out_" : String).data = ['a', 'c', '_', 'o', 'u', 't', '_'] := rfl
  refine ⟨?_, ?_, ?_, ?_⟩
  · intro h
    have hd := congrArg String.data h
    simp only [inPath, outPath, pathJoin, String.data_append, hslash, hin, hout,
      List.singleton_append, List.cons_append] at hd
    have h2 := List.append_cancel_left hd
    simp at h2
  · intro ht h
    have hd := congrArg String.data h
    obtain ⟨l₁, hl₁⟩ := fileExtOf_shape f₁
    obtain ⟨l₂, hl₂⟩ := fileExtOf_shape f₂
    simp only [inPath, pathJoin, String.data_append, hslash, hin, hl₁, hl₂,
      List.singleton_append, List.cons_append] at hd
    have h2 := List.append_cancel_left hd
    simp only [List.nil_append, List.cons.injEq, true_and] at h2
    have hD := append_dot_split (natDecimal t₁).data
      (natDecimal_chars t₁) (natDecimal_chars t₂) h2
    exact ht (natDecimal_inj (strData_inj hD))
  · intro ht h
    have hd := congrArg String.data h
    obtain ⟨l₁, hl₁⟩ := fileExtOf_shape f₁
    obtain ⟨l₂, hl₂⟩ := fileExtOf_shape f₂
    simp only [outPath, pathJoin, String.data_append, hslash, hout, hl₁, hl₂,
      List.singleton_append, List.cons_append] at hd
    have h2 := List.append_cancel_left hd
    simp only [List.nil_append, List.cons.injEq, true_and] at h2
    have hD := append_dot_split (natDecimal t₁).data
      (natDecimal_chars t₁) (natDecimal_chars t₂) h2
    exact ht (natDecimal_inj (strData_inj hD))
  · intro h
    unfold fileExtOf
    rw [if_pos h]

/-- Witness for C9 (amended) at concrete timestamps `0` and `1`: the two
calls' input paths differ. -/
theorem c9_paths_amended_witness :
    inPath "/tmp" 0 "a.mp4" ≠ inPath "/tmp" 1 "a.mp4" :=
  (c9_paths_amended "/tmp" "a.mp4" "a.mp4" 0 1).2.1 (by decide)

/-! ### `handleFile` orchestration -/

/-- The observable actions one `handleFile` call performs, in order:
writing the temp input, spawning the probe, spawning the encoder,
reading the temp output, and attempting an `unlink`. -/
inductive HFAction
| writeInput (path : String)
| probeSpawn
| encodeSpawn
| readOutput (path : String)
| unlinkAttempt (path : String)
deriving DecidableEq, Repr

/-- `cleanup` from `native.ts`: `Promise.allSettled(paths.map(unlink))` —
every deletion is attempted; per-path failures are collected as settled
results and never thrown.  Returns the settlement statuses and the
attempted actions. -/
def cleanup (unlinkFails : String → Bool) (paths : List String) :
    List (Except String Unit) × List HFAction :=
  (paths.map fun p => if unlinkFails p then .error "unlink failed" else .ok (),
   paths.map fun p => .unlinkAttempt p)

/-- The effect environment of one `handleFile` call: the `Date.now()`
value, the temp directory, and the outcomes of its awaited steps —
`writeFile` (a thrown message or success), `getVideoDuration` (a thrown
message or the resolved duration), `compressVideo`, `readFile`, and
which `unlink` calls would fail. -/
structure HFWorld where
  now : ℕ
  tmpdir : String
  writeErr : Option String
  probe : Except String JsNum
  encode : Except String Unit
  readErr : Option String
  unlinkFails : String → Bool

/-- The result `handleFile` returns to the renderer; the success payload
(compressed bytes) is abstracted away since no claim inspects it. -/
inductive HFResult
| success
| failure (error : String)
deriving DecidableEq, Repr

/-- The bitrate computation of `handleFile`:
`Math.floor(target * 8 * 1024 * 1024 / duration / 1000)`.  An infinite
duration gives `0` (a finite value divided by infinity).  `nan` and
`negInf` cannot reach this point — `getVideoDuration` never resolves
with them — and are mapped to `0`. -/
def computeVideoBitrate (target : ℚ) (duration : JsNum) : ℤ :=
  match duration with
  | .num d => ⌊target * 8 * 1024 * 1024 / d / 1000⌋
  | .posInf => 0
  | .negInf => 0
  | .nan => 0

/-- `handleFile` from `native.ts` as a function of its effect
environment: derive the temp paths, write the input, probe the duration,
compute the bitrate and refuse below 100 kbps (cleaning up the input),
otherwise encode, read the output and clean up both temp paths; any
thrown step lands in the `catch`, which cleans up both temp paths and
returns the error message.  Returns the result and the ordered action
trace. -/
def handleFile (w : HFWorld) (fileName : String) (target : ℚ) :
    HFResult × List HFAction :=
  let inP := inPath w.tmpdir w.now fileName
  let outP := outPath w.tmpdir w.now fileName
  match w.writeErr with
  | some msg =>
    (.failure msg, [.writeInput inP] ++ (cleanup w.unlinkFails [inP, outP]).2)
  | none =>
    match w.probe with
    | .error msg =>
      (.failure msg, [.writeInput inP, .probeSpawn] ++ (cleanup w.unlinkFails [inP, outP]).2)
    | .ok duration =>
      let videoBitrate := computeVideoBitrate target duration
      if videoBitrate < 100 then
        (.failure ("target bitrate too low (" ++ intDecimal videoBitrate ++ "k)"),
         [.writeInput inP, .probeSpawn] ++ (cleanup w.unlinkFails [inP]).2)
      else
        match w.encode with
        | .error msg =>
          (.failure msg,
           [.writeInput inP, .probeSpawn, .encodeSpawn]
             ++ (cleanup w.unlinkFails [inP, outP]).2)
        | .ok _ =>
          match w.readErr with
          | some msg =>
            (.failure msg,
             [.writeInput inP, .probeSpawn, .encodeSpawn, .readOutput outP]
               ++ (cleanup w.unlinkFails [inP, outP]).2)
          | none =>
            (.success,
             [.writeInput inP, .probeSpawn, .encodeSpawn, .readOutput outP]
               ++ (cleanup w.unlinkFails [inP, outP]).2)

/-- C1: the video bitrate `handleFile` computes from a finite probed
duration is exactly `floor(targetSizeBytes * 8 / durationSeconds / 1000)`
kbps, where `targetSizeBytes` is the target in megabytes times
`1024 * 1024`; in particular a 9 MB target at 120 s gives 629 kbps. -/
theorem c1_bitrate_formula :
    (∀ (target d : ℚ),
      computeVideoBitrate target (.num d) = ⌊target * 1024 * 1024 * 8 / d / 1000⌋) ∧
    computeVideoBitrate 9 (.num 120) = 629 := by
  constructor
  · intro target d
    unfold computeVideoBitrate
    exact congrArg (fun x : ℚ => ⌊x⌋) (by ring)
  · unfold computeVideoBitrate
    norm_num [Int.floor_eq_iff]

/-- C3: on every exit path of `handleFile` — success, write failure,
probe failure, bitrate-too-low, encode failure (including timeout and
spawn failure, which reach the same `catch`), or read failure — an
`unlink` of the temp input path is attempted before the outcome is
returned; whenever the encoder was spawned (the only step that can
create the temp output) an `unlink` of the temp output path is also
attempted; and the returned outcome never depends on which `unlink`
calls fail. -/
theorem c3_cleanup_every_path (w : HFWorld) (fileName : String) (target : ℚ) :
    HFAction.unlinkAttempt (inPath w.tmpdir w.now fileName)
        ∈ (handleFile w fileName target).2 ∧
    (HFAction.encodeSpawn ∈ (handleFile w fileName target).2 →
      HFAction.unlinkAttempt (outPath w.tmpdir w.now fileName)
        ∈ (handleFile w fileName target).2) ∧
    (∀ f2, (handleFile { w with unlinkFails := f2 } fileName target).1
        = (handleFile w fileName target).1) := by
  obtain ⟨now, tmp, we, pr, en, re, uf⟩ := w
  cases we with
  | some msg => simp [handleFile, cleanup]
  | none =>
    cases pr with
    | error msg => simp [handleFile, cleanup]
    | ok d =>
      by_cases hb : computeVideoBitrate target d < 100
      · simp [handleFile, cleanup, hb]
      · cases en with
        | error msg => simp [handleFile, cleanup, hb]
        | ok u =>
          cases re with
          | some msg => simp [handleFile, cleanup, hb]
          | none => simp [handleFile, cleanup, hb]

/-- Witness for C3 at a concrete environment taking the success path:
the temp output path's deletion is attempted. -/
theorem c3_cleanup_every_path_witness :
    HFAction.unlinkAttempt (outPath "/tmp" 0 "a.mp4")
      ∈ (handleFile ⟨0, "/tmp", none, .ok (.num 100), .ok (), none, fun _ => false⟩
          "a.mp4" 9).2 := by
  have hbit : computeVideoBitrate 9 (.num 100) = 754 := by
    unfold computeVideoBitrate
    norm_num [Int.floor_eq_iff]
  exact (c3_cleanup_every_path ⟨0, "/tmp", none, .ok (.num 100), .ok (), none,
    fun _ => false⟩ "a.mp4" 9).2.1 (by simp [handleFile, cleanup, hbit])

/-- C4: when the probe resolves and the computed video bitrate is below
100, `handleFile` returns the bitrate-too-low failure whose message
contains the rendered computed bitrate, the encoder is never spawned,
and deletion of the temp input is attempted before returning. -/
theorem c4_bitrate_too_low (w : HFWorld) (fileName : String) (target : ℚ) (d : JsNum)
    (hw : w.writeErr = none) (hp : w.probe = .ok d)
    (hlow : computeVideoBitrate target d < 100) :
    (handleFile w fileName target).1
        = .failure ("target bitrate too low ("
            ++ intDecimal (computeVideoBitrate target d) ++ "k)") ∧
    strIncludes ("target bitrate too low ("
        ++ intDecimal (computeVideoBitrate target d) ++ "k)")
      (intDecimal (computeVideoBitrate target d)) = true ∧
    HFAction.encodeSpawn ∉ (handleFile w fileName target).2 ∧
    HFAction.unlinkAttempt (inPath w.tmpdir w.now fileName)
        ∈ (handleFile w fileName target).2 := by
  obtain ⟨now, tmp, we, pr, en, re, uf⟩ := w
  simp only at hw hp
  subst hw
  subst hp
  refine ⟨?_, ?_, ?_, ?_⟩
  · simp [handleFile, cleanup, hlow]
  · exact strIncludes_append "target bitrate too low (" _ "k)"
  · simp [handleFile, cleanup, hlow]
  · simp [handleFile, cleanup, hlow]

/-- Witness for C4 at a concrete input (9 MB target, 75497472 s probed
duration, computed bitrate 0): the call fails with the bitrate message
carrying the computed value. -/
theorem c4_bitrate_too_low_witness :
    (handleFile ⟨0, "/tmp", none, .ok (.num 75497472), .ok (), none, fun _ => false⟩
        "a" 9).1 = .failure "target bitrate too low (0k)" := by
  have hbit : computeVideoBitrate 9 (.num 75497472) = 0 := by
    unfold computeVideoBitrate
    norm_num [Int.floor_eq_iff]
  have h := (c4_bitrate_too_low ⟨0, "/tmp", none, .ok (.num 75497472), .ok (), none,
    fun _ => false⟩ "a" 9 (.num 75497472) rfl rfl (by rw [hbit]; norm_num)).1
  rw [hbit] at h
  exact h
